import Mathlib

/-!
Verification of `src/second.py`: two implementations of a "second largest"
finder over an in-memory sequence of integers.

  def second_for(values):
      first, second = -1, -1
      for val in values:
          if val > first:
              first, second = val, first
          elif val > second:
              second = val
      return second

  def second_sort(values):
      values = sorted(values)
      return values[-2]

The embedding uses `List Int` for Python sequences of integers.  The loop of
`second_for` is a left fold with explicit state `(first, second)`.  Python's
`sorted` is a stable ascending sort producing a fresh list; on integers any
ascending sort yields the same list, and we embed it as
`List.insertionSort (· ≤ ·)`.  Python's negative indexing and its
IndexError are embedded by `pyIndex`, which returns `none` exactly when
Python raises.
-/

/-- One iteration of the loop body of `second_for`: the state is the pair
`(first, second)`, and `val` is the current element.  The simultaneous
assignment `first, second = val, first` is the first branch. -/
def step (p : Int × Int) (val : Int) : Int × Int :=
  if val > p.1 then (val, p.1)
  else if val > p.2 then (p.1, val)
  else p

/-- Embedding of `second_for` from `src/second.py`: fold the loop body over
the input starting from the sentinel state `(-1, -1)` and return the final
`second`. -/
def second_for (values : List Int) : Int :=
  (values.foldl step (-1, -1)).2

/-- Python indexing `l[i]` with negative-index support, as a fallible
operation: `none` models the IndexError raised when the (translated) index
is out of range. -/
def pyIndex (l : List Int) (i : Int) : Option Int :=
  if i < 0 then
    if i + l.length < 0 then none else l[(i + l.length).toNat]?
  else l[i.toNat]?

/-- Embedding of `second_sort` from `src/second.py`: sort ascending
(Python's `sorted` is a stable ascending sort; it is embedded as insertion
sort, which is stable, and on integers any ascending sort produces the same
list) and take index `-2`. -/
def second_sort (values : List Int) : Option Int :=
  pyIndex (values.insertionSort (· ≤ ·)) (-2)

/-- Descending sort, used to state what `second_for` computes: the
descending-sorted view of a multiset of values. -/
def sortDesc (l : List Int) : List Int :=
  l.insertionSort (· ≥ ·)

/-- Evaluation of the loop body on a literal state. -/
theorem step_eval (a b v : Int) :
    step (a, b) v = if v > a then (v, a) else if v > b then (a, v) else (a, b) := rfl

/-- The loop body is right-commutative: processing `u` then `v` gives the
same state as processing `v` then `u`, from any state whatsoever.  This is
the heart of the order-invariance of `second_for`. -/
theorem step_comm (z : Int × Int) (u v : Int) :
    step (step z u) v = step (step z v) u := by
  obtain ⟨a, b⟩ := z
  simp only [step]
  split_ifs <;> simp_all [Prod.mk.injEq] <;> omega

/-- Elements no larger than the running `second` leave the state unchanged. -/
theorem foldl_step_const (a b : Int) (hba : b ≤ a) :
    ∀ l : List Int, (∀ v ∈ l, v ≤ b) → l.foldl step (a, b) = (a, b) := by
  intro l
  induction l with
  | nil => intro _; rfl
  | cons v t ih =>
    intro hl
    have hv : v ≤ b := hl v (List.mem_cons_self v t)
    have hstep : step (a, b) v = (a, b) := by
      simp only [step]
      split_ifs <;> first | rfl | (exfalso; omega)
    rw [List.foldl_cons, hstep]
    exact ih fun w hw => hl w (List.mem_cons_of_mem v hw)

/-- `second_for` depends only on the multiset of input values. -/
theorem second_for_congr_perm {l l' : List Int} (h : l.Perm l') :
    second_for l = second_for l' := by
  unfold second_for
  rw [h.foldl_eq' (fun x _ y _ z => step_comm z x y) (-1, -1)]

theorem sortDesc_sorted (l : List Int) : List.Sorted (· ≥ ·) (sortDesc l) :=
  List.sorted_insertionSort _ l

theorem sortDesc_perm (l : List Int) : (sortDesc l).Perm l :=
  List.perm_insertionSort _ l

theorem sortDesc_length (l : List Int) : (sortDesc l).length = l.length :=
  List.length_insertionSort _ l

/-- Permutation-equivalent lists have equal descending sorts (sortedness
plus the permutation determine the list, since `≥` on `Int` is
antisymmetric). -/
theorem sortDesc_congr {l l' : List Int} (h : l.Perm l') : sortDesc l = sortDesc l' :=
  List.eq_of_perm_of_sorted ((sortDesc_perm l).trans (h.trans (sortDesc_perm l').symm))
    (sortDesc_sorted l) (sortDesc_sorted l')

/-- Feeding the two sentinel values through the loop first changes nothing:
`step (-1, -1) (-1) = (-1, -1)`. -/
theorem second_for_sentinel_cons (l : List Int) :
    second_for ((-1) :: (-1) :: l) = second_for l := by
  unfold second_for
  rw [List.foldl_cons, List.foldl_cons]
  norm_num [step]

/-- Master characterisation: `second_for l` is the element at index 1 of the
descending sort of the input with the two sentinel copies of -1 adjoined.
Proof: the fold is order-invariant, so evaluate it on the descending sort
`d0 :: d1 :: rest`; the state after `d0` and `d1` is `(d0, d1)` (using
`d1 ≥ -1`, which holds because the multiset contains two copies of -1), and
the remaining smaller elements change nothing. -/
theorem second_for_eq_sortDesc (l : List Int) :
    (sortDesc ((-1) :: (-1) :: l))[1]? = some (second_for l) := by
  have hperm := sortDesc_perm ((-1) :: (-1) :: l)
  have hsort := sortDesc_sorted ((-1) :: (-1) :: l)
  have hlen := sortDesc_length ((-1) :: (-1) :: l)
  rcases hD : sortDesc ((-1) :: (-1) :: l) with _ | ⟨d0, _ | ⟨d1, rest⟩⟩
  · rw [hD] at hlen; simp at hlen
  · rw [hD] at hlen; simp at hlen
  · rw [hD] at hperm hsort
    rw [List.sorted_cons] at hsort
    obtain ⟨h0, hsort1⟩ := hsort
    rw [List.sorted_cons] at hsort1
    obtain ⟨h1, _⟩ := hsort1
    have h01 : d1 ≤ d0 := h0 d1 (List.mem_cons_self d1 rest)
    have hcount := hperm.count_eq (-1)
    have hd1 : (-1 : Int) ≤ d1 := by
      by_contra hlt
      push_neg at hlt
      have hnot : (-1 : Int) ∉ d1 :: rest := by
        intro hmem
        rcases List.mem_cons.mp hmem with h | h
        · omega
        · have := h1 (-1) h
          omega
      have hc0 : List.count (-1) (d1 :: rest) = 0 := List.count_eq_zero.mpr hnot
      have hc2 : 2 ≤ List.count (-1) ((-1) :: (-1) :: l) := by
        simp [List.count_cons]
      rw [List.count_cons, hc0] at hcount
      split_ifs at hcount <;> omega
    have e2 : second_for (d0 :: d1 :: rest) = second_for ((-1) :: (-1) :: l) :=
      second_for_congr_perm hperm
    have e3 : second_for (d0 :: d1 :: rest) = d1 := by
      unfold second_for
      rw [List.foldl_cons, List.foldl_cons]
      have s1 : step (-1, -1) d0 = (d0, -1) := by
        rw [step_eval]
        split_ifs <;> simp only [Prod.mk.injEq, and_true, true_and] <;> omega
      have s2 : step (d0, -1) d1 = (d0, d1) := by
        rw [step_eval]
        split_ifs <;> simp only [Prod.mk.injEq, and_true, true_and] <;> omega
      rw [s1, s2, foldl_step_const d0 d1 h01 rest h1]
    have hval : second_for l = d1 := by
      rw [← second_for_sentinel_cons l, ← e2, e3]
    rw [hval]
    simp

/-- Claim C1, counterexample: on `[5, 5]` the tie does NOT leave the sentinel
in place.  After the first 5 the state is `(5, -1)`; for the second 5 the
test `5 > 5` fails but `5 > -1` succeeds, so `second` becomes 5.  Both
functions return 5, refuting the claimed result -1 and the claimed
divergence. -/
theorem second_for_tie_counterexample :
    second_for [5, 5] ≠ -1 ∧ second_for [5, 5] = 5 ∧ second_sort [5, 5] = some 5 := by
  decide

/-- Claim C1, amended: on the input `[5, 5]` the two implementations agree:
`second_for` returns 5 (the duplicate maximum reaches the `second` slot via
the `val > second` branch) and `second_sort` returns 5. -/
theorem second_for_second_sort_tie_agreement :
    second_for [5, 5] = 5 ∧ second_sort [5, 5] = some 5 := by
  decide

/-- Claim C2: on every input of length at least 2 with pairwise-distinct
values, all strictly above -1, the linear scan agrees with the sort-based
oracle. -/
theorem second_for_eq_second_sort (l : List Int) (hlen : 2 ≤ l.length)
    (hnd : l.Nodup) (hpos : ∀ x ∈ l, -1 < x) :
    second_sort l = some (second_for l) := by
  have hslen : (l.insertionSort (· ≤ ·)).length = l.length :=
    List.length_insertionSort _ l
  have h1 : second_sort l = (l.insertionSort (· ≤ ·))[l.length - 2]? := by
    unfold second_sort pyIndex
    rw [if_pos (by norm_num : (-2 : Int) < 0)]
    simp only [hslen]
    rw [if_neg (by omega)]
    rw [show ((-2 : Int) + (l.length : Int)).toNat = l.length - 2 from by omega]
  have hrevsorted : List.Sorted (· ≥ ·) (l.insertionSort (· ≤ ·)).reverse := by
    have hasc := List.sorted_insertionSort (· ≤ ·) l
    exact List.pairwise_reverse.mpr hasc
  have hrevperm : (l.insertionSort (· ≤ ·)).reverse.Perm l :=
    (List.reverse_perm (l.insertionSort (· ≤ ·))).trans (List.perm_insertionSort _ l)
  have hdesc : sortDesc l = (l.insertionSort (· ≤ ·)).reverse :=
    List.eq_of_perm_of_sorted ((sortDesc_perm l).trans hrevperm.symm)
      (sortDesc_sorted l) hrevsorted
  have h2 : (sortDesc l)[1]? = (l.insertionSort (· ≤ ·))[l.length - 2]? := by
    rw [hdesc, List.getElem?_reverse (by omega)]
    rw [show (l.insertionSort (· ≤ ·)).length - 1 - 1 = l.length - 2 from by omega]
  have happ : sortDesc ((-1) :: (-1) :: l) = sortDesc l ++ [-1, -1] := by
    refine List.eq_of_perm_of_sorted ?_ (sortDesc_sorted _) ?_
    · refine (sortDesc_perm _).trans ?_
      have hbase : ((-1) :: (-1) :: l).Perm (l ++ [-1, -1]) :=
        @List.perm_append_comm Int [-1, -1] l
      exact hbase.trans (List.Perm.append_right [-1, -1] (sortDesc_perm l).symm)
    · rw [List.Sorted, List.pairwise_append]
      refine ⟨sortDesc_sorted l, by decide, ?_⟩
      intro a ha b hb
      have hal : a ∈ l := (sortDesc_perm l).subset ha
      have hga := hpos a hal
      simp only [List.mem_cons, List.mem_singleton, List.not_mem_nil, or_false] at hb
      rcases hb with hb | hb <;> omega
  have h3 := second_for_eq_sortDesc l
  rw [happ, List.getElem?_append, if_pos (by rw [sortDesc_length]; omega)] at h3
  rw [h1, ← h2, h3]

/-- Claim C2, witness: the hypotheses hold for `[3, 1, 2]`, where both
implementations give 2. -/
theorem second_for_eq_second_sort_witness :
    (2 ≤ ([3, 1, 2] : List Int).length ∧ ([3, 1, 2] : List Int).Nodup ∧
      (∀ x ∈ ([3, 1, 2] : List Int), -1 < x)) ∧
    second_sort [3, 1, 2] = some (second_for [3, 1, 2]) :=
  ⟨⟨by decide, by decide, by decide⟩,
    second_for_eq_second_sort [3, 1, 2] (by decide) (by decide) (by decide)⟩

/-- Claim C3: `second_for` is order-invariant — on any permutation of the
input it returns the same result, so the result depends only on the
multiset of values. -/
theorem second_for_perm_invariant (l l' : List Int) (h : l.Perm l') :
    second_for l' = second_for l :=
  (second_for_congr_perm h).symm

/-- Claim C3, witness: `[2, 1]` is a permutation of `[1, 2]` and
`second_for` gives 1 on both. -/
theorem second_for_perm_invariant_witness :
    ([1, 2] : List Int).Perm [2, 1] ∧ second_for [2, 1] = second_for [1, 2] :=
  ⟨by decide, second_for_perm_invariant [1, 2] [2, 1] (by decide)⟩

/-- Claim C4: `second_sort` fails (returns `none`, the embedding of the
IndexError) exactly on inputs with fewer than two elements — in particular
on the empty list and on one-element lists — and succeeds on every input of
length at least 2. -/
theorem second_sort_none_iff (l : List Int) :
    second_sort l = none ↔ l.length < 2 := by
  have hslen : (l.insertionSort (· ≤ ·)).length = l.length :=
    List.length_insertionSort _ l
  unfold second_sort pyIndex
  rw [if_pos (by norm_num : (-2 : Int) < 0)]
  simp only [hslen]
  by_cases h : l.length < 2
  · rw [if_pos (by omega)]
    simp [h]
  · rw [if_neg (by omega)]
    have hidx : ((-2 : Int) + (l.length : Int)).toNat < (l.insertionSort (· ≤ ·)).length := by
      rw [hslen]; omega
    rw [List.getElem?_eq_getElem hidx]
    simp [h]

/-- Claim C5: `second_for` is a total function (the embedding never fails,
matching "never raises"); on the empty list and on any one-element list —
in particular `[7]` — it returns the sentinel -1. -/
theorem second_for_short_inputs :
    second_for [] = -1 ∧ ∀ x : Int, second_for [x] = -1 := by
  refine ⟨rfl, fun x => ?_⟩
  unfold second_for
  simp only [List.foldl_cons, List.foldl_nil, step]
  split_ifs <;> rfl

/-- Claim C6: on the all-negative input `[-5, -3]` the sentinel -1 wins
every comparison, so the result is -1 and not -3: the documented
negative-input defect. -/
theorem second_for_negative_input :
    second_for [-5, -3] = -1 ∧ second_for [-5, -3] ≠ -3 := by
  decide

/-- Claim C7: on every input of length at least 2, `second_sort` succeeds
and returns the element at index `length - 2` of the ascending sort of the
input (the second-to-last element); the sort is ascending (`Sorted (· ≤ ·)`)
and a permutation of the input.  Stability is automatic on `Int`: equal
elements are indistinguishable, and insertion sort is stable. -/
theorem second_sort_index_spec (l : List Int) (h : 2 ≤ l.length) :
    List.Sorted (· ≤ ·) (l.insertionSort (· ≤ ·)) ∧
    (l.insertionSort (· ≤ ·)).Perm l ∧
    second_sort l = (l.insertionSort (· ≤ ·))[l.length - 2]? := by
  refine ⟨List.sorted_insertionSort _ l, List.perm_insertionSort _ l, ?_⟩
  have hslen : (l.insertionSort (· ≤ ·)).length = l.length :=
    List.length_insertionSort _ l
  unfold second_sort pyIndex
  rw [if_pos (by norm_num : (-2 : Int) < 0)]
  simp only [hslen]
  rw [if_neg (by omega)]
  rw [show ((-2 : Int) + (l.length : Int)).toNat = l.length - 2 from by omega]

/-- Claim C7, witness: for `[3, 1, 2]` the ascending sort is `[1, 2, 3]`
and `second_sort` returns its element at index 1, namely 2. -/
theorem second_sort_index_spec_witness :
    2 ≤ ([3, 1, 2] : List Int).length ∧
    (List.Sorted (· ≤ ·) (([3, 1, 2] : List Int).insertionSort (· ≤ ·)) ∧
     (([3, 1, 2] : List Int).insertionSort (· ≤ ·)).Perm [3, 1, 2] ∧
     second_sort [3, 1, 2] =
       (([3, 1, 2] : List Int).insertionSort (· ≤ ·))[([3, 1, 2] : List Int).length - 2]?) :=
  ⟨by decide, second_sort_index_spec [3, 1, 2] (by decide)⟩

/-- Claim C8: on `[3, 1, 4, 1, 5, 9, 2, 6]` both implementations return 6
(sorted ascending: `[1, 1, 2, 3, 4, 5, 6, 9]`, second-to-last is 6). -/
theorem second_for_second_sort_agreement_example :
    second_for [3, 1, 4, 1, 5, 9, 2, 6] = 6 ∧
    second_sort [3, 1, 4, 1, 5, 9, 2, 6] = some 6 := by
  decide

/-- Claim C10: `second_for` computes the element at index 1 of the
descending sort of the input multiset with two copies of the sentinel -1
adjoined.  (Elements below -1 can never enter the state, which is why the
adjoined sentinels dominate them; elements equal to -1 are likewise
harmless because two sentinels are already present.) -/
theorem second_for_characterisation (l : List Int) :
    (sortDesc (l ++ [-1, -1]))[1]? = some (second_for l) := by
  have hp : (l ++ [-1, -1]).Perm ((-1) :: (-1) :: l) := List.perm_append_comm
  rw [sortDesc_congr hp]
  exact second_for_eq_sortDesc l
